import Mathlib

/-
  Shallow embedding of the mbox parser (midbel/mbox, src/mbox.go).
  Byte streams are modelled as `List Char`; the `bufio.Reader` primitives
  (ReadString/ReadBytes with delimiter, Peek, ReadByte/UnreadByte) are
  modelled explicitly.  Loops whose termination is not structural carry a
  fuel argument; every internal call supplies fuel that is provably
  sufficient (one unit per consumed character plus one), so exhaustion is
  unreachable on those paths.
-/

set_option maxRecDepth 100000

namespace Mbox

/-- Whitespace set of Go `strings.TrimSpace` / `bytes.TrimSpace`
(ASCII portion: space, \t, \n, \r, vertical tab, form feed). -/
def isSpaceChar (c : Char) : Bool :=
  c = ' ' || c = '\t' || c = '\n' || c = '\r' || c = Char.ofNat 11 || c = Char.ofNat 12

/-- Go `strings.TrimSpace`: strip leading and trailing whitespace. -/
def trimSpace (xs : List Char) : List Char :=
  ((xs.dropWhile isSpaceChar).reverse.dropWhile isSpaceChar).reverse

/-- Go `strings.Split` with a one-character separator: always returns
one more piece than there are separators (so `[""]` on empty input). -/
def splitOnChar (sep : Char) : List Char → List (List Char)
  | [] => [[]]
  | c :: cs =>
    let r := splitOnChar sep cs
    if c = sep then [] :: r else (c :: r.headD []) :: r.tail

/-- ASCII lower-casing of one character (Go `strings.ToLower` on the
ASCII values that occur in encodings and parameter names). -/
def lowerChar (c : Char) : Char :=
  if 'A' ≤ c && c ≤ 'Z' then Char.ofNat (c.toNat + 32) else c

/-- ASCII upper-casing of one character. -/
def upperChar (c : Char) : Char :=
  if 'a' ≤ c && c ≤ 'z' then Char.ofNat (c.toNat - 32) else c

def lowerStr (xs : List Char) : List Char := xs.map lowerChar

/-- Go `bufio.Reader.ReadString('\n')` / `ReadBytes('\n')`: returns the
data up to and including the delimiter, a flag telling whether the
delimiter was found (`false` models `err == io.EOF`), and the rest. -/
def readLine : List Char → List Char × Bool × List Char
  | [] => ([], false, [])
  | c :: cs =>
    if c = '\n' then ([c], true, cs)
    else
      let r := readLine cs
      (c :: r.1, r.2.1, r.2.2)

/-- Index of the first colon, Go `strings.Index(line, ":")`. -/
def colonIndex : List Char → Option Nat
  | [] => none
  | c :: cs => if c = ':' then some 0 else (colonIndex cs).map (· + 1)

/-- Valid header-field byte of Go `net/textproto`
(alphanumerics and the RFC 7230 token specials). -/
def validHeaderFieldChar (c : Char) : Bool :=
  ('0' ≤ c && c ≤ '9') || ('a' ≤ c && c ≤ 'z') || ('A' ≤ c && c ≤ 'Z') ||
  c = '!' || c = '#' || c = '$' || c = '%' || c = '&' || c = Char.ofNat 39 ||
  c = '*' || c = '+' || c = '-' || c = '.' || c = Char.ofNat 94 || c = '_' ||
  c = Char.ofNat 96 || c = '|' || c = Char.ofNat 126

/-- Case-mapping pass of `textproto.CanonicalMIMEHeaderKey`: upper-case
a letter at the start and after each hyphen, lower-case the rest. -/
def canonAux : Bool → List Char → List Char
  | _, [] => []
  | upA, c :: cs => (if upA then upperChar c else lowerChar c) :: canonAux (c = '-') cs

/-- Go `textproto.CanonicalMIMEHeaderKey`: the canonical form, or the key
unchanged when it contains a byte that is not a valid field byte. -/
def canonicalKey (k : List Char) : List Char :=
  if k.all validHeaderFieldChar then canonAux true k else k

/-- Go `type Header map[string][]string`, modelled as an association list
(keys are stored canonicalized, exactly as the Go methods keep them). -/
structure Header where
  entries : List (List Char × List (List Char))
deriving DecidableEq, Repr

def emptyHeader : Header := ⟨[]⟩

def hLookup : List (List Char × List (List Char)) → List Char → Option (List (List Char))
  | [], _ => none
  | e :: es, k => if e.1 = k then some e.2 else hLookup es k

/-- `h[k] = append(h[k], v)` on the association list. -/
def addEntry : List (List Char × List (List Char)) → List Char → List Char →
    List (List Char × List (List Char))
  | [], k, v => [(k, [v])]
  | e :: es, k, v => if e.1 = k then (e.1, e.2 ++ [v]) :: es else e :: addEntry es k v

/-- `vs[len(vs)-1]` with `""` when empty. -/
def lastOrNil : List (List Char) → List Char
  | [] => []
  | [x] => x
  | _ :: x :: xs => lastOrNil (x :: xs)

/-- Go `Header.Has`. -/
def Header.Has (h : Header) (k : List Char) : Bool :=
  (hLookup h.entries (canonicalKey k)).isSome

/-- Go `Header.Add`: canonicalize the key, append the trimmed value. -/
def Header.Add (h : Header) (k v : List Char) : Header :=
  ⟨addEntry h.entries (canonicalKey k) (trimSpace v)⟩

/-- Go `Header.Get`: the last value stored under the canonical key, or empty. -/
def Header.Get (h : Header) (k : List Char) : List Char :=
  lastOrNil ((hLookup h.entries (canonicalKey k)).getD [])

/-- Go `Header.Set`: truncate the value list if present, then Add. -/
def Header.Set (h : Header) (k v : List Char) : Header :=
  let k' := canonicalKey k
  let es := if ((hLookup h.entries k').getD []).length > 0 then
      h.entries.map (fun e => if e.1 = k' then (e.1, ([] : List (List Char))) else e)
    else h.entries
  Header.Add ⟨es⟩ k v

/-- Go `Header.Del`. -/
def Header.Del (h : Header) (k : List Char) : Header :=
  ⟨h.entries.filter (fun e => ¬ e.1 = canonicalKey k)⟩

/-- The continuation loop inside `readHeader` (mbox.go:420-431): while the
next byte is a tab or a space, consume it, read the rest of that physical
line (the trailing newline included), trim it only when the consumed byte
was a plain space, and append it to the value after a single space.
Returns the extended value and the remaining stream; the first
non-whitespace byte is left unconsumed (`UnreadByte`). -/
def consumeCont : Nat → List Char → List Char → List Char × List Char
  | 0, s, value => (value, s)
  | fuel + 1, s, value =>
    match s with
    | [] => (value, [])
    | c :: cs =>
      if c = '\t' || c = ' ' then
        let r := readLine cs
        let str := if c = ' ' then trimSpace r.1 else r.1
        consumeCont fuel r.2.2 (value ++ ' ' :: str)
      else (value, c :: cs)

/-- `consumeCont` with always-sufficient fuel (one per consumed byte). -/
def consumeContFull (s value : List Char) : List Char × List Char :=
  consumeCont (s.length + 1) s value

def missingColonMsg : List Char := "missing colon in header: ".data

/-- Go `readHeader` (mbox.go:401-435): read lines until a blank line; at
end of stream (`err == io.EOF`, which also drops a final unterminated
line) stop without error; a non-blank line without a colon is a hard
error; otherwise split at the first colon, absorb continuations and store
the field.  Returns the result together with the unconsumed stream. -/
def readHeaderAux : Nat → List Char → Header → Except (List Char) Header × List Char
  | 0, s, hdr => (.ok hdr, s)
  | fuel + 1, s, hdr =>
    let r := readLine s
    if r.2.1 = false then (.ok hdr, r.2.2)
    else
      let t := trimSpace r.1
      if t = [] then (.ok hdr, r.2.2)
      else
        match colonIndex t with
        | none => (.error (missingColonMsg ++ t), r.2.2)
        | some ix =>
          let cc := consumeContFull r.2.2 (trimSpace (t.drop (ix + 1)))
          readHeaderAux fuel cc.2 (Header.Add hdr (t.take ix) cc.1)

def readHeaderFull (s : List Char) : Except (List Char) Header × List Char :=
  readHeaderAux (s.length + 1) s emptyHeader

/-- Stream consumption of the continuation loop alone (used to state the
specification-side predicate for the header reader). -/
def dropCont : Nat → List Char → List Char
  | 0, s => s
  | fuel + 1, s =>
    match s with
    | [] => []
    | c :: cs =>
      if c = '\t' || c = ' ' then dropCont fuel (readLine cs).2.2 else c :: cs

def dropContFull (s : List Char) : List Char := dropCont (s.length + 1) s

/-- Specification-side predicate, following the spec's words for the
Header Reader: parsing fails if and only if, before the blank-line
terminator, some complete non-continuation non-blank line contains no
colon; end of stream (including a final unterminated line) is tolerated. -/
def specHeaderBad : Nat → List Char → Bool
  | 0, _ => false
  | fuel + 1, s =>
    let r := readLine s
    if r.2.1 = false then false
    else
      let t := trimSpace r.1
      if t = [] then false
      else
        match colonIndex t with
        | none => true
        | some _ => specHeaderBad fuel (dropContFull r.2.2)

def specHeaderBadFull (s : List Char) : Bool := specHeaderBad (s.length + 1) s

def isErrB {ε α : Type} : Except ε α → Bool
  | .error _ => true
  | .ok _ => false

/-- Parsed content type of the external `github.com/midbel/mime` package
(only `MainType`, `SubType` and `Params` are used by this repository). -/
structure MimeType where
  MainType : List Char
  SubType : List Char
  Params : List (List Char × List Char)
deriving DecidableEq, Repr

/-- Go `strings.Trim(s, "\x22 ")`: strip quotes and spaces at both ends. -/
def trimQuoteSpace (xs : List Char) : List Char :=
  let cut := fun c => c = Char.ofNat 34 || c = ' '
  ((xs.dropWhile cut).reverse.dropWhile cut).reverse

/-- Model of the external `github.com/midbel/mime` `Parse`: the value up
to the first semicolon must be `main/sub`; the remaining semicolon
segments of shape `name=value` become parameters with lower-cased trimmed
names and trimmed, unquoted values. -/
def mimeParse (str : List Char) : Except (List Char) MimeType :=
  let parts := splitOnChar ';' str
  match splitOnChar '/' (trimSpace (parts.headD [])) with
  | [m, sub] =>
    let ps := parts.tail.foldl (fun acc seg =>
      match splitOnChar '=' (trimSpace seg) with
      | k :: v :: _ => acc ++ [(lowerStr (trimSpace k), trimQuoteSpace v)]
      | _ => acc) []
    .ok ⟨trimSpace m, trimSpace sub, ps⟩
  | _ => .error ("invalid mime type".data)

/-- `mt, _ := mime.Parse(v)`: the parse result with the zero value on error. -/
def mimeParseD (str : List Char) : MimeType :=
  match mimeParse str with
  | .ok mt => mt
  | .error _ => ⟨[], [], []⟩

/-- `mt.Params[k]` (Go map lookup, empty string when absent). -/
def MimeType.param (mt : MimeType) (k : List Char) : List Char :=
  ((mt.Params.find? (fun e => e.1 = k)).map (·.2)).getD []

def hdrMimeVersion : List Char := "MIME-Version".data
def hdrContentType : List Char := "Content-Type".data
def hdrContentDispo : List Char := "Content-Disposition".data
def hdrContentEncoding : List Char := "Content-Transfer-Encoding".data
def encBase64 : List Char := "base64".data
def encQuoted : List Char := "quoted-printable".data
def multiPart : List Char := "multipart".data
def multiBound : List Char := "boundary".data
def fromLineMarker : List Char := "From ".data
def twoDashes : List Char := "--".data

/-- Go `type Part struct { Header; Body []byte }`. -/
structure Part where
  Header : Header
  Body : List Char
deriving DecidableEq, Repr

/-- Go `type Message struct { Header; Parts []Part }`. -/
structure Message where
  Header : Header
  Parts : List Part
deriving DecidableEq, Repr

/-- Promoted `Get` of the embedded Header. -/
def Part.Get (p : Part) (k : List Char) : List Char := Header.Get p.Header k

def Message.Get (m : Message) (k : List Char) : List Char := Header.Get m.Header k

def Message.Has (m : Message) (k : List Char) : Bool := Header.Has m.Header k

/-- Go `Message.IsMime`: presence of the MIME-Version header. -/
def Message.IsMime (m : Message) : Bool := Message.Has m hdrMimeVersion

/-- Go `Message.IsMultipart` (mbox.go:130-136): false without
MIME-Version; otherwise the parsed Content-Type main type is compared
(parse error ignored, yielding the zero value). -/
def Message.IsMultipart (m : Message) : Bool :=
  if Message.IsMime m then (mimeParseD (Message.Get m hdrContentType)).MainType = multiPart
  else false

/-- Go `Part.IsMultipart` (mbox.go:201-204). -/
def Part.IsMultipart (p : Part) : Bool :=
  (mimeParseD (Part.Get p hdrContentType)).MainType = multiPart

/-- Go `parseValueField` (mbox.go:456-471): split on semicolons; with no
semicolon return the raw value and a nil map; otherwise each remaining
segment is trimmed and split on the equals sign, and the code indexes
`vs[1]` without a guard — a segment without an equals sign is an
out-of-range access, modelled as `none` (panic). -/
def parseValueField (str : List Char) : Option (List Char × List (List Char × List Char)) :=
  let parts := splitOnChar ';' str
  if parts.length = 1 then some (parts.headD [], [])
  else
    let step := fun (acc : Option (List (List Char × List Char))) (seg : List Char) =>
      match acc with
      | none => none
      | some m =>
        match splitOnChar '=' (trimSpace seg) with
        | v0 :: v1 :: _ =>
          let key := trimSpace (lowerStr v0)
          let val := trimQuoteSpace v1
          some (if m.any (fun e => e.1 = key) then
              m.map (fun e => if e.1 = key then (e.1, val) else e)
            else m ++ [(key, val)])
        | _ => none
    match parts.tail.foldl step (some []) with
    | none => none
    | some m => some (parts.headD [], m)

/-- Go `Header.Split` (mbox.go:253-260): `("", nil)` unless exactly one
value is stored; otherwise `parseValueField` on it (which may panic). -/
def Header.Split (h : Header) (k : List Char) :
    Option (List Char × List (List Char × List Char)) :=
  match hLookup h.entries (canonicalKey k) with
  | none => some ([], [])
  | some vs =>
    if vs.length = 1 then parseValueField (vs.headD []) else some ([], [])

/-- Go `Part.Filename` (mbox.go:175-189); `none` models the panic coming
from `parseValueField` on a parameter segment without an equals sign. -/
def Part.Filename (p : Part) : Option (List Char) :=
  match parseValueField (Part.Get p hdrContentDispo) with
  | none => none
  | some (hdr, ps) =>
    if hdr = "attachment".data || hdr = "inline".data then
      let f := (((ps.find? (fun e => e.1 = "filename".data)).map (·.2)).getD [])
      if f = [] then
        match mimeParse (Part.Get p hdrContentType) with
        | .ok mt => some (MimeType.param mt ("name".data))
        | .error _ => some []
      else some f
    else some []

/-- Go `Part.IsAttachment` (mbox.go:191-194); `none` models the panic. -/
def Part.IsAttachment (p : Part) : Option Bool :=
  match parseValueField (Part.Get p hdrContentDispo) with
  | none => none
  | some (hdr, _) => some (hdr = "attachment".data)

/-- Go `Part.IsInline` (mbox.go:196-199); `none` models the panic. -/
def Part.IsInline (p : Part) : Option Bool :=
  match parseValueField (Part.Get p hdrContentDispo) with
  | none => none
  | some (hdr, _) => some (hdr = "inline".data)

/-- Base64 value of one character in the standard alphabet. -/
def b64Val (c : Char) : Option Nat :=
  if 'A' ≤ c && c ≤ 'Z' then some (c.toNat - 65)
  else if 'a' ≤ c && c ≤ 'z' then some (c.toNat - 97 + 26)
  else if '0' ≤ c && c ≤ '9' then some (c.toNat - 48 + 52)
  else if c = '+' then some 62
  else if c = '/' then some 63
  else none

/-- Model of Go's streaming `base64.StdEncoding` decode as read by
`ioutil.ReadAll` with the error ignored (mbox.go:220,226): quanta of four
characters decode to three bytes; `xx==` and `xxx=` padding end the
stream with one or two bytes; any invalid character, truncated quantum or
misplaced padding stops the decode, keeping the bytes already produced
and emitting nothing from the failing quantum. -/
def base64Decode : List Char → List Char
  | [] => []
  | [_] => []
  | a :: b :: rest =>
    match b64Val a, b64Val b with
    | some va, some vb =>
      (match rest with
      | [] => []
      | c :: rest2 =>
        if c = '=' then
          match rest2 with
          | '=' :: _ => [Char.ofNat (va * 4 + vb / 16)]
          | _ => []
        else
          match b64Val c with
          | none => []
          | some vc =>
            match rest2 with
            | [] => []
            | d :: rest3 =>
              if d = '=' then
                [Char.ofNat (va * 4 + vb / 16), Char.ofNat ((vb % 16) * 16 + vc / 4)]
              else
                match b64Val d with
                | none => []
                | some vd =>
                  Char.ofNat (va * 4 + vb / 16) :: Char.ofNat ((vb % 16) * 16 + vc / 4) ::
                    Char.ofNat ((vc % 4) * 64 + vd) :: base64Decode rest3)
    | _, _ => []

/-- Lines produced by `bufio.Scanner` with `ScanLines`: split on newlines,
no final empty token, one trailing carriage return stripped per line. -/
def scanLines (s : List Char) : List (List Char) :=
  let ps := splitOnChar '\n' s
  let ps := if ps.getLastD [] = [] then ps.dropLast else ps
  ps.map (fun l => if l.getLastD ' ' = '\r' then l.dropLast else l)

/-- The scanner loop of `decodeBody`'s base64 branch (mbox.go:211-216):
concatenate the scanned lines into one buffer. -/
def scanConcat (s : List Char) : List Char := (scanLines s).foldl (· ++ ·) []

/-- Hexadecimal value of one character (Go `mime/quotedprintable`). -/
def hexVal (c : Char) : Option Nat :=
  if '0' ≤ c && c ≤ '9' then some (c.toNat - 48)
  else if 'A' ≤ c && c ≤ 'F' then some (c.toNat - 65 + 10)
  else if 'a' ≤ c && c ≤ 'f' then some (c.toNat - 97 + 10)
  else none

/-- Model of Go `mime/quotedprintable` reading under `ioutil.ReadAll`
with the error ignored: `=XX` hex escapes are resolved, `=`-terminated
lines are soft breaks, other bytes pass through; an invalid escape stops
the decode keeping the output so far (transport-padding trimming is
elided; no theorem below depends on this branch). -/
def qpDecode : List Char → List Char
  | [] => []
  | '=' :: '\n' :: rest => qpDecode rest
  | '=' :: '\r' :: '\n' :: rest => qpDecode rest
  | '=' :: h1 :: h2 :: rest =>
    (match hexVal h1, hexVal h2 with
    | some x, some y => Char.ofNat (x * 16 + y) :: qpDecode rest
    | _, _ => [])
  | ['='] => []
  | ['=', _] => []
  | c :: rest => c :: qpDecode rest

/-- Go `Part.decodeBody` (mbox.go:206-228): dispatch on the lower-cased
Content-Transfer-Encoding; base64 concatenates the scanned body lines and
best-effort-decodes them; quoted-printable decodes; anything else returns
the body unchanged.  No branch can signal an error to the caller. -/
def decodeBody (p : Part) : List Char :=
  let enc := lowerStr (Part.Get p hdrContentEncoding)
  if enc = encBase64 then base64Decode (scanConcat p.Body)
  else if enc = encQuoted then qpDecode p.Body
  else p.Body

/-- Go `Part.Bytes`. -/
def Part.Bytes (p : Part) : List Char := decodeBody p

/-- Go `Part.Text` (mbox.go:147-157). -/
def Part.Text (p : Part) : List Char :=
  match mimeParse (Part.Get p hdrContentType) with
  | .error _ => []
  | .ok mt =>
    if mt.MainType = "text".data && mt.SubType = "plain".data then decodeBody p else []

/-- Go `Part.HTML` (mbox.go:159-169). -/
def Part.HTML (p : Part) : List Char :=
  match mimeParse (Part.Get p hdrContentType) with
  | .error _ => []
  | .ok mt =>
    if mt.MainType = "text".data && mt.SubType = "html".data then decodeBody p else []

/-- The two error values that flow through the engine: `io.EOF` and a
`fmt.Errorf` message. -/
inductive GoErr where
  | eof
  | msg (e : List Char)
deriving DecidableEq, Repr

def emptyBoundaryMsg : List Char := "empty boundary delimiter".data

/-- Go `skipProlog` (mbox.go:363-374): read lines until one trims to
exactly the boundary; `none` models the `io.EOF` returned when the stream
ends first (a final unterminated line is never compared). -/
def skipProlog : Nat → List Char → List Char → Option (List Char)
  | 0, _, _ => none
  | fuel + 1, boundary, s =>
    let r := readLine s
    if r.2.1 = false then none
    else if trimSpace r.1 = boundary then some r.2.2
    else skipProlog fuel boundary r.2.2

def skipPrologFull (boundary s : List Char) : Option (List Char) :=
  skipProlog (s.length + 1) boundary s

/-- Go `skipEpilog` (mbox.go:342-361): with a nil parent boundary the
delimiter is the "From " envelope marker; peek ahead, stop when the
delimiter (or end of stream) is next, otherwise discard one line.
Returns the unconsumed stream; stream end is swallowed, never reported. -/
def skipEpilog : Nat → List Char → List Char → List Char
  | 0, _, s => s
  | fuel + 1, boundary, s =>
    if s.length < boundary.length then s
    else if s.take boundary.length = boundary then s
    else skipEpilog fuel boundary (readLine s).2.2

def skipEpilogFull (parent : Option (List Char)) (s : List Char) : List Char :=
  skipEpilog (s.length + 1) (parent.getD fromLineMarker) s

/-- Result of the body-accumulation loop inside `readPart`. -/
inductive BodyScan where
  | eofFail
  | found (str : List Char) (body : List Char) (rest : List Char)
deriving DecidableEq, Repr

/-- The loop of `readPart` (mbox.go:309-319): append raw lines to the
body until a line starts with the boundary (prefix match); when the
stream ends first (`ReadBytes` error) the part is abandoned —
`nil, err` is returned, which `eofFail` models; the matched boundary
line is returned trimmed. -/
def partBodyLoop : Nat → List Char → List Char → List Char → BodyScan
  | 0, _, _, _ => .eofFail
  | fuel + 1, boundary, s, body =>
    let r := readLine s
    if r.2.1 = false then .eofFail
    else if boundary.isPrefixOf r.1 then .found (trimSpace r.1) body r.2.2
    else partBodyLoop fuel boundary r.2.2 (body ++ r.1)

/-- Go `part2Parts` (mbox.go:330-340), parameterized by the recursive
`readBody` it invokes: a non-multipart part is the singleton leaf; a
multipart part is re-parsed from its own body with its own boundary
parameter, the parent delimiter passed through. -/
def part2PartsWith
    (rb : List Char → List Char → Option (List Char) → List Part × Option GoErr × List Char)
    (p : Part) (parent : Option (List Char)) : List Part × Option GoErr :=
  if Part.IsMultipart p = false then ([p], none)
  else
    match mimeParse (Part.Get p hdrContentType) with
    | .error e => ([], some (.msg e))
    | .ok mt =>
      let r := rb p.Body (twoDashes ++ MimeType.param mt multiBound) parent
      (r.1, r.2.1)

/-- Go `readPart` (mbox.go:299-328), parameterized by the recursive
`readBody`: read a header block (a header error aborts with no part),
accumulate the body up to a boundary-prefixed line (stream end abandons
the part with `io.EOF`), flag the final part when the trimmed boundary
line ends in `--`, and expand the captured part through `part2Parts`. -/
def readPartWith
    (rb : List Char → List Char → Option (List Char) → List Part × Option GoErr × List Char)
    (s boundary : List Char) (parent : Option (List Char)) :
    List Part × Option GoErr × List Char :=
  match readHeaderFull s with
  | (.error e, s1) => ([], some (.msg e), s1)
  | (.ok hdr, s1) =>
    match partBodyLoop (s1.length + 1) boundary s1 [] with
    | .eofFail => ([], some .eof, [])
    | .found str body rest =>
      let isLast := twoDashes.isSuffixOf str
      match part2PartsWith rb ⟨hdr, body⟩ parent with
      | (_, some e) => ([], some e, rest)
      | (ps, none) => (ps, if isLast then some GoErr.eof else none, rest)

/-- The part loop of `readBody` (mbox.go:284-295): parts returned with a
nil error are appended and the loop continues; `io.EOF` appends and
stops; any other error aborts the whole call. -/
def partsLoopWith
    (rb : List Char → List Char → Option (List Char) → List Part × Option GoErr × List Char) :
    Nat → List Char → List Char → Option (List Char) → List Part →
    List Part × Option (List Char) × List Char
  | 0, s, _, _, _ => ([], some ("out of fuel".data), s)
  | fuel + 1, s, boundary, parent, ps =>
    match readPartWith rb s boundary parent with
    | (xs, none, rest) => partsLoopWith rb fuel rest boundary parent (ps ++ xs)
    | (xs, some .eof, rest) => (ps ++ xs, none, rest)
    | (_, some (.msg e), rest) => ([], some e, rest)

/-- Go `readBody` (mbox.go:275-297): reject the empty boundary token,
skip the prolog (propagating its `io.EOF`), run the part loop, then skip
the epilog.  Returns the parts, the error as handed to the caller, and
the unconsumed stream. -/
def readBody : Nat → List Char → List Char → Option (List Char) →
    List Part × Option GoErr × List Char
  | 0, s, _, _ => ([], some (.msg ("out of fuel".data)), s)
  | fuel + 1, s, boundary, parent =>
    if boundary = twoDashes then ([], some (.msg emptyBoundaryMsg), s)
    else
      match skipPrologFull boundary s with
      | none => ([], some GoErr.eof, [])
      | some rest =>
        match partsLoopWith (fun b bd par => readBody fuel b bd par) fuel rest boundary parent [] with
        | (_, some e, rest') => ([], some (.msg e), rest')
        | (ps, none, rest') => (ps, none, skipEpilogFull parent rest')

/-- The loop of `readPlain` (mbox.go:376-399): stop when the next five
bytes are the "From " marker; otherwise append the next line (kept even
when the stream ends without a newline) and continue; stream end stops
without error. -/
def readPlainLoop : Nat → List Char → List Char → List Char × List Char
  | 0, s, buffer => (buffer, s)
  | fuel + 1, s, buffer =>
    if s.take fromLineMarker.length = fromLineMarker then (buffer, s)
    else
      let r := readLine s
      let buffer := buffer ++ r.1
      if r.2.1 = false then (buffer, [])
      else readPlainLoop fuel r.2.2 buffer

def readPlainFull (s : List Char) : List Char × List Char :=
  readPlainLoop (s.length + 1) s []

/-- The envelope loop of `ReadMessage` (mbox.go:53-65): skip blank lines;
`io.EOF` (also on a final unterminated line) is returned as the
end-of-stream signal; a non-blank line must start with "From ". -/
def fromLoop : Nat → List Char → Option GoErr × List Char
  | 0, s => (some (.msg ("out of fuel".data)), s)
  | fuel + 1, s =>
    let r := readLine s
    if r.2.1 = false then (some GoErr.eof, r.2.2)
    else
      let t := trimSpace r.1
      if t = [] then fromLoop fuel r.2.2
      else if fromLineMarker.isPrefixOf t then (none, r.2.2)
      else (some (.msg ("expected From Line. Got ".data ++ t)), r.2.2)

/-- Go `ReadMessage` (mbox.go:51-84): envelope line, header block, then
either the plain-body capture (always one synthetic part, nil error) or
the multipart engine — whose result is appended only when its error is
nil, the error itself being dropped (`return m, nil`). -/
def ReadMessage (fuel : Nat) (s : List Char) : Message × Option GoErr × List Char :=
  match fromLoop (s.length + 1) s with
  | (some e, rest) => (⟨emptyHeader, []⟩, some e, rest)
  | (none, rest) =>
    match readHeaderFull rest with
    | (.error e, s1) => (⟨emptyHeader, []⟩, some (.msg e), s1)
    | (.ok hdr, s1) =>
      if Message.IsMultipart ⟨hdr, []⟩ = false then
        let r := readPlainFull s1
        (⟨hdr, [⟨emptyHeader, r.1⟩]⟩, none, r.2)
      else
        match mimeParse (Header.Get hdr hdrContentType) with
        | .error e => (⟨hdr, []⟩, some (.msg e), s1)
        | .ok mt =>
          let r := readBody fuel s1 (twoDashes ++ MimeType.param mt multiBound) none
          let parts := match r.2.1 with
            | none => r.1
            | some _ => []
          (⟨hdr, parts⟩, none, r.2.2)

/-- A multipart message whose Content-Type carries no boundary parameter. -/
def noBoundaryStream : List Char :=
  "From a@b\nMIME-Version: 1.0\nContent-Type: multipart/mixed\n\nbody\n".data

/-- A multipart message whose stream ends before any prolog boundary line. -/
def noPrologStream : List Char :=
  "From a@b\nMIME-Version: 1.0\nContent-Type: multipart/mixed; boundary=AAA\n\nno boundary line here\n".data

/-- A multipart message whose second part is cut off by end of stream
before any boundary-prefixed line. -/
def truncatedPartStream : List Char :=
  "From a@b\nMIME-Version: 1.0\nContent-Type: multipart/mixed; boundary=bb\n\n--bb\nContent-Type: text/plain\n\nAAA\n--bb\nContent-Type: text/plain\n\nBBB collected then lost\n".data

/-- The part-level stream of the truncated second part above (header block
then body text with no boundary line before end of stream). -/
def truncatedPartTail : List Char :=
  "Content-Type: text/plain\n\nBBB collected then lost\n".data

/-- A multipart/mixed message holding one multipart/alternative part with
two leaves and one plain attachment leaf. -/
def mixedAltStream : List Char :=
  "From sender@example.com\nMIME-Version: 1.0\nContent-Type: multipart/mixed; boundary=outer\n\npreamble junk\n--outer\nContent-Type: multipart/alternative; boundary=inner\n\n--inner\nContent-Type: text/plain\n\nAAA\n--inner\nContent-Type: text/html\n\nBBB\n--inner--\n--outer\nContent-Type: text/plain\nContent-Disposition: attachment; filename=qq\n\nCCC\n--outer--\n".data

/-- A message whose Content-Type is multipart but that carries no
MIME-Version header. -/
def noMimeVersionStream : List Char :=
  "From a@b\nContent-Type: multipart/mixed; boundary=zz\n\n--zz\nhello\n--zz--\n".data

/-- A part whose base64 body decodes to three bytes and then hits an
invalid character. -/
def badBase64Part : Part :=
  ⟨Header.Add emptyHeader hdrContentEncoding encBase64, "QUJD!!!!".data⟩

/-- A part with a 7bit transfer encoding. -/
def plain7bitPart : Part :=
  ⟨Header.Add emptyHeader hdrContentEncoding ("7bit".data), "xyz body".data⟩

/-- A Content-Disposition value whose second semicolon segment has no
equals sign. -/
def dispoNoEquals : List Char := "attachment; foo".data

/-- A header carrying that Content-Disposition value. -/
def dispoNoEqualsHeader : Header := Header.Add emptyHeader hdrContentDispo dispoNoEquals

/-- A part carrying that Content-Disposition value. -/
def dispoNoEqualsPart : Part := ⟨dispoNoEqualsHeader, []⟩

instance {ε α : Type} [DecidableEq ε] [DecidableEq α] : DecidableEq (Except ε α) := fun x y =>
  match x, y with
  | .error a, .error b =>
    if h : a = b then isTrue (by rw [h]) else isFalse (fun he => by cases he; exact h rfl)
  | .ok a, .ok b =>
    if h : a = b then isTrue (by rw [h]) else isFalse (fun he => by cases he; exact h rfl)
  | .error _, .ok _ => isFalse (fun he => by cases he)
  | .ok _, .error _ => isFalse (fun he => by cases he)

lemma readLine_rest_le (s : List Char) : (readLine s).2.2.length ≤ s.length := by
  induction s with
  | nil => simp [readLine]
  | cons c cs ih =>
    by_cases h : c = '\n'
    · simp [readLine, h]
    · simp [readLine, h]
      omega

lemma readLine_rest_lt (s : List Char) (h : (readLine s).2.1 = true) :
    (readLine s).2.2.length < s.length := by
  induction s with
  | nil => simp [readLine] at h
  | cons c cs ih =>
    by_cases hc : c = '\n'
    · simp [readLine, hc]
    · simp [readLine, hc] at h ⊢
      exact Nat.lt_succ_of_lt (ih h)

lemma readLine_append (xs ys : List Char) (h : '\n' ∉ xs) :
    readLine (xs ++ '\n' :: ys) = (xs ++ ['\n'], true, ys) := by
  induction xs with
  | nil => simp [readLine]
  | cons c cs ih =>
    have hc : ¬ c = '\n' := fun hc => h (hc ▸ List.mem_cons_self c cs)
    have hm : '\n' ∉ cs := fun hm => h (List.mem_cons_of_mem c hm)
    simp [readLine, hc, ih hm]

lemma readLine_no_newline (s : List Char) (h : '\n' ∉ s) : readLine s = (s, false, []) := by
  induction s with
  | nil => simp [readLine]
  | cons c cs ih =>
    have hc : ¬ c = '\n' := fun hc => h (hc ▸ List.mem_cons_self c cs)
    have hm : '\n' ∉ cs := fun hm => h (List.mem_cons_of_mem c hm)
    simp [readLine, hc, ih hm]

lemma dropWhile_len_le (p : Char → Bool) (l : List Char) :
    (l.dropWhile p).length ≤ l.length := by
  induction l with
  | nil => simp
  | cons c cs ih =>
    by_cases hc : p c = true
    · rw [List.dropWhile_cons, if_pos hc]
      simp only [List.length_cons]
      omega
    · rw [List.dropWhile_cons, if_neg hc]

lemma dropWhile_keep (p : Char → Bool) (l m : List Char)
    (h : l.dropWhile p = l) (h0 : l ≠ []) : (l ++ m).dropWhile p = l ++ m := by
  cases l with
  | nil => exact absurd rfl h0
  | cons c cs =>
    have hc : p c = false := by
      by_contra hc'
      have hc : p c = true := by simpa using hc'
      rw [List.dropWhile_cons, if_pos hc] at h
      have := dropWhile_len_le p cs
      rw [h] at this
      simp at this
    simp [List.dropWhile_cons, hc]

lemma trimSpace_eq_self (l : List Char) (h1 : l.dropWhile isSpaceChar = l)
    (h2 : l.reverse.dropWhile isSpaceChar = l.reverse) : trimSpace l = l := by
  unfold trimSpace
  rw [h1, h2, List.reverse_reverse]

lemma trim_nl (l : List Char) (h1 : l.dropWhile isSpaceChar = l) (h0 : l ≠ [])
    (h2 : l.reverse.dropWhile isSpaceChar = l.reverse) : trimSpace (l ++ ['\n']) = l := by
  unfold trimSpace
  rw [dropWhile_keep _ _ _ h1 h0, List.reverse_append]
  have hnl : isSpaceChar '\n' = true := rfl
  simp only [List.reverse_cons, List.reverse_nil, List.nil_append, List.singleton_append,
    List.dropWhile_cons, hnl, if_true, h2, List.reverse_reverse]

lemma consumeCont_rest_le : ∀ (f : Nat) (s v : List Char),
    (consumeCont f s v).2.length ≤ s.length := by
  intro f
  induction f with
  | zero => intro s v; simp [consumeCont]
  | succ f ih =>
    intro s v
    cases s with
    | nil => simp [consumeCont]
    | cons c cs =>
      by_cases hc : (c = '\t' || c = ' ') = true
      · simp only [consumeCont, hc, if_true]
        have h1 := ih (readLine cs).2.2 (v ++ ' ' :: (if c = ' ' then trimSpace (readLine cs).1 else (readLine cs).1))
        have h2 := readLine_rest_le cs
        simp only [List.length_cons]
        omega
      · simp [consumeCont, hc]

lemma consumeCont_irrel : ∀ (f1 f2 : Nat) (s v : List Char),
    s.length < f1 → s.length < f2 → consumeCont f1 s v = consumeCont f2 s v := by
  intro f1
  induction f1 with
  | zero => intro f2 s v h1 _; omega
  | succ f1 ih =>
    intro f2 s v h1 h2
    cases f2 with
    | zero => omega
    | succ f2 =>
      cases s with
      | nil => simp [consumeCont]
      | cons c cs =>
        by_cases hc : (c = '\t' || c = ' ') = true
        · simp only [consumeCont, hc, if_true]
          have hr := readLine_rest_le cs
          apply ih
          · simp only [List.length_cons] at h1; omega
          · simp only [List.length_cons] at h2; omega
        · simp [consumeCont, hc]

lemma consumeCont_snd : ∀ (f : Nat) (s v : List Char), (consumeCont f s v).2 = dropCont f s := by
  intro f
  induction f with
  | zero => intro s v; simp [consumeCont, dropCont]
  | succ f ih =>
    intro s v
    cases s with
    | nil => simp [consumeCont, dropCont]
    | cons c cs =>
      by_cases hc : (c = '\t' || c = ' ') = true
      · simp only [consumeCont, dropCont, hc, if_true]
        exact ih _ _
      · simp [consumeCont, dropCont, hc]

lemma readHeaderAux_irrel : ∀ (f1 f2 : Nat) (s : List Char) (hdr : Header),
    s.length < f1 → s.length < f2 → readHeaderAux f1 s hdr = readHeaderAux f2 s hdr := by
  intro f1
  induction f1 with
  | zero => intro f2 s hdr h1 _; omega
  | succ f1 ih =>
    intro f2 s hdr h1 h2
    cases f2 with
    | zero => omega
    | succ f2 =>
      simp only [readHeaderAux]
      by_cases hs : (readLine s).2.1 = false
      · simp [hs]
      · simp only [hs, if_false]
        have hsaw : (readLine s).2.1 = true := by
          cases h : (readLine s).2.1
          · exact absurd h hs
          · rfl
        by_cases ht : trimSpace (readLine s).1 = []
        · simp [ht]
        · simp only [ht, if_false]
          cases hci : colonIndex (trimSpace (readLine s).1) with
          | none => rfl
          | some ix =>
            have hlt := readLine_rest_lt s hsaw
            have hle := consumeCont_rest_le ((readLine s).2.2.length + 1) (readLine s).2.2
              (trimSpace ((trimSpace (readLine s).1).drop (ix + 1)))
            apply ih
            · unfold consumeContFull
              omega
            · unfold consumeContFull
              omega

lemma headerBad_iff : ∀ (f : Nat) (s : List Char) (hdr : Header),
    isErrB (readHeaderAux f s hdr).1 = specHeaderBad f s := by
  intro f
  induction f with
  | zero => intro s hdr; simp [readHeaderAux, specHeaderBad, isErrB]
  | succ f ih =>
    intro s hdr
    simp only [readHeaderAux, specHeaderBad]
    by_cases hs : (readLine s).2.1 = false
    · simp [hs, isErrB]
    · simp only [hs, if_false]
      by_cases ht : trimSpace (readLine s).1 = []
      · simp [ht, isErrB]
      · simp only [ht, if_false]
        cases hci : colonIndex (trimSpace (readLine s).1) with
        | none => simp [isErrB]
        | some ix =>
          simp only []
          rw [show (consumeContFull (readLine s).2.2
              (trimSpace ((trimSpace (readLine s).1).drop (ix + 1)))).2
            = dropContFull (readLine s).2.2 from consumeCont_snd _ _ _]
          exact ih _ _

lemma colonIndex_append (n a : List Char) (h : ':' ∉ n) :
    colonIndex (n ++ ':' :: a) = some n.length := by
  induction n with
  | nil => simp [colonIndex]
  | cons c cs ih =>
    have hc : ¬ c = ':' := fun hc => h (hc ▸ List.mem_cons_self c cs)
    have hm : ':' ∉ cs := fun hm => h (List.mem_cons_of_mem c hm)
    simp [colonIndex, hc, ih hm]

lemma hLookup_addEntry_self : ∀ (es : List (List Char × List (List Char))) (k v : List Char),
    hLookup (addEntry es k v) k = some ((hLookup es k).getD [] ++ [v]) := by
  intro es
  induction es with
  | nil => intro k v; simp [addEntry, hLookup]
  | cons e es ih =>
    intro k v
    by_cases he : e.1 = k
    · simp [addEntry, hLookup, he]
    · simp [addEntry, hLookup, he, ih]

lemma lastOrNil_concat : ∀ (xs : List (List Char)) (x : List Char),
    lastOrNil (xs ++ [x]) = x := by
  intro xs
  induction xs with
  | nil => intro x; simp [lastOrNil]
  | cons c cs ih =>
    intro x
    cases cs with
    | nil => simp [lastOrNil]
    | cons c2 cs2 =>
      have := ih x
      simpa [lastOrNil] using this

lemma take_len_append (l m : List Char) : (l ++ m).take l.length = l := by
  induction l with
  | nil => simp
  | cons c cs ih => simp [ih]

lemma drop_len_append (l m : List Char) : (l ++ m).drop l.length = m := by
  induction l with
  | nil => simp
  | cons c cs ih => simp [ih]

lemma drop_colon (n a : List Char) : (n ++ ':' :: a).drop (n.length + 1) = a := by
  have h1 : n ++ ':' :: a = (n ++ [':']) ++ a := by simp
  have h2 : n.length + 1 = (n ++ [':']).length := by simp
  rw [h1, h2, drop_len_append]

/-- One step of the header reader on a stream opening with a complete,
already-trimmed line holding a colon: the field before the colon and the
trimmed remainder extended by the continuation loop are stored, and the
reader proceeds on what the continuation loop left. -/
lemma readHeaderAux_step (f : Nat) (line tail : List Char) (hdr : Header) (ix : Nat)
    (hl1 : line.dropWhile isSpaceChar = line)
    (hl2 : line.reverse.dropWhile isSpaceChar = line.reverse)
    (hl0 : ¬ line = []) (hlNL : '\n' ∉ line)
    (hci : colonIndex line = some ix) :
    readHeaderAux (f + 1) (line ++ '\n' :: tail) hdr
      = readHeaderAux f (consumeContFull tail (trimSpace (line.drop (ix + 1)))).2
          (Header.Add hdr (line.take ix)
            (consumeContFull tail (trimSpace (line.drop (ix + 1)))).1) := by
  have hrl := readLine_append line tail hlNL
  have htr := trim_nl line hl1 hl0 hl2
  simp only [readHeaderAux, hrl, htr, hl0, if_false, Bool.true_eq_false, hci]

def noBoundaryTail : List Char := "body\n".data

def noPrologTail : List Char := "no boundary line here\n".data

def aaaLine : List Char := "AAA\n".data

def bbbLine : List Char := "BBB\n".data

def cccLine : List Char := "CCC\n".data

def bbbLostLine : List Char := "BBB collected then lost\n".data

/-- C1: the claimed invariant fails: on a MIME multipart message whose
Content-Type has no boundary parameter, `readBody` reports the empty
boundary delimiter error, but `ReadMessage` drops it (`return m, nil`,
mbox.go:80-83) and hands back a Message with zero Parts and no error —
while the repository's own test insists every parsed message has at
least one part. -/
theorem readMessage_returns_zero_parts :
    (ReadMessage 60 noBoundaryStream).1.Parts = []
    ∧ (ReadMessage 60 noBoundaryStream).2.1 = none
    ∧ (readBody 60 noBoundaryTail twoDashes none).2.1 = some (GoErr.msg emptyBoundaryMsg) :=
  ⟨rfl, rfl, rfl⟩

/-- C2: the claimed propagation fails: when the stream ends before the
prolog boundary, `readBody` returns `io.EOF`, but `ReadMessage` swallows
it and returns a successful zero-part Message (`return m, nil`). -/
theorem readMessage_swallows_structural_error :
    (ReadMessage 60 noPrologStream).1.Parts = []
    ∧ (ReadMessage 60 noPrologStream).2.1 = none
    ∧ (readBody 60 noPrologTail (twoDashes ++ ("AAA".data)) none).2.1 = some GoErr.eof :=
  ⟨rfl, rfl, rfl⟩

/-- C3 counterexample: in a multipart body whose second part is cut off
by end of stream before any boundary line, the engine's output holds
only the first part; the data collected for the truncated part (its
header and the body line) is discarded, contradicting the claim that it
is still emitted. -/
theorem truncated_part_is_dropped :
    (ReadMessage 60 truncatedPartStream).1.Parts.map Part.Body = [aaaLine]
    ∧ (ReadMessage 60 truncatedPartStream).1.Parts.length = 1
    ∧ ¬ bbbLostLine ∈ (ReadMessage 60 truncatedPartStream).1.Parts.map Part.Body :=
  ⟨rfl, rfl, by decide⟩

/-- C3 amended: when the part-level stream ends before a boundary line,
`readPart` abandons the part being read — it returns no parts together
with the end-of-stream error — and the surrounding loop then stops,
keeping exactly the parts completed earlier. -/
theorem readPart_truncation_discards
    (rb : List Char → List Char → Option (List Char) → List Part × Option GoErr × List Char)
    (s boundary : List Char) (parent : Option (List Char)) (H : Header) (s1 : List Char)
    (f : Nat) (ps : List Part) (rest : List Char)
    (h1 : readHeaderFull s = (Except.ok H, s1))
    (h2 : partBodyLoop (s1.length + 1) boundary s1 [] = BodyScan.eofFail) :
    readPartWith rb s boundary parent = ([], some GoErr.eof, [])
    ∧ (readPartWith rb s boundary parent = ([], some GoErr.eof, rest) →
        partsLoopWith rb (f + 1) s boundary parent ps = (ps, none, rest)) := by
  constructor
  · unfold readPartWith
    rw [h1]
    dsimp only
    rw [h2]
  · intro hr
    unfold partsLoopWith
    rw [hr]
    simp

/-- C3 witness for the amended statement, at the concrete truncated tail. -/
theorem readPart_truncation_discards_witness :
    readPartWith (readBody 0) truncatedPartTail (twoDashes ++ ("bb".data)) none
      = ([], some GoErr.eof, [])
    ∧ partsLoopWith (readBody 0) 7 truncatedPartTail (twoDashes ++ ("bb".data)) none [⟨emptyHeader, aaaLine⟩]
      = ([⟨emptyHeader, aaaLine⟩], none, []) := by
  have h := readPart_truncation_discards (readBody 0) truncatedPartTail
    (twoDashes ++ ("bb".data)) none
    (Header.Add emptyHeader ("Content-Type".data) ("text/plain".data))
    bbbLostLine 6 [⟨emptyHeader, aaaLine⟩] [] (by decide) (by decide)
  exact ⟨h.1, h.2 h.1⟩

/-- C4 counterexample: a base64 body whose first quantum is valid and
whose second is corrupt decodes to the three bytes of the first quantum,
not to an empty result. -/
theorem base64_failure_keeps_prefix :
    Part.Bytes badBase64Part = ("ABC".data)
    ∧ ¬ Part.Bytes badBase64Part = [] :=
  ⟨rfl, by decide⟩

/-- C4 amended: decoding never propagates an error; a part whose
(lower-cased) transfer encoding is neither base64 nor quoted-printable
gets its body back unchanged, and a base64 part gets the best-effort
decode of its concatenated body lines — the bytes decoded before any
error, possibly empty. -/
theorem decodeBody_dispatch (p : Part)
    (h1 : ¬ lowerStr (Part.Get p hdrContentEncoding) = encBase64)
    (h2 : ¬ lowerStr (Part.Get p hdrContentEncoding) = encQuoted) :
    Part.Bytes p = p.Body
    ∧ (∀ q : Part, lowerStr (Part.Get q hdrContentEncoding) = encBase64 →
        Part.Bytes q = base64Decode (scanConcat q.Body)) := by
  constructor
  · unfold Part.Bytes decodeBody
    simp [h1, h2]
  · intro q hq
    unfold Part.Bytes decodeBody
    simp [hq]

/-- C4 witness: the dispatch at a 7bit part and at a base64 part. -/
theorem decodeBody_dispatch_witness :
    Part.Bytes plain7bitPart = plain7bitPart.Body
    ∧ Part.Bytes badBase64Part = base64Decode (scanConcat badBase64Part.Body) := by
  have h := decodeBody_dispatch plain7bitPart (by decide) (by decide)
  exact ⟨h.1, h.2 badBase64Part (by decide)⟩

/-- C10: on a header value with a semicolon segment holding no equals
sign, the unguarded `vs[1]` of `parseValueField` is an out-of-range
access (modelled as `none`), and `Filename`, `IsAttachment`, `IsInline`
and `Header.Split` all hit it instead of returning a result. -/
theorem parseValueField_out_of_range :
    parseValueField dispoNoEquals = none
    ∧ Part.Filename dispoNoEqualsPart = none
    ∧ Part.IsAttachment dispoNoEqualsPart = none
    ∧ Part.IsInline dispoNoEqualsPart = none
    ∧ Header.Split dispoNoEqualsHeader hdrContentDispo = none :=
  ⟨rfl, rfl, rfl, rfl, rfl⟩

/-- C5: a captured part whose own Content-Type main type is multipart is
not kept as a leaf: `part2Parts` re-parses its body with its own
boundary parameter through the recursive engine, while a non-multipart
part is the singleton leaf; concretely, the multipart/mixed message with
one multipart/alternative part (two leaves) and one plain attachment
flattens to exactly the three leaf parts in document order. -/
theorem part2Parts_flattening
    (rb : List Char → List Char → Option (List Char) → List Part × Option GoErr × List Char)
    (p : Part) (parent : Option (List Char)) (mt : MimeType)
    (hmp : Part.IsMultipart p = true)
    (hparse : mimeParse (Part.Get p hdrContentType) = Except.ok mt) :
    part2PartsWith rb p parent
      = ((rb p.Body (twoDashes ++ MimeType.param mt multiBound) parent).1,
         (rb p.Body (twoDashes ++ MimeType.param mt multiBound) parent).2.1)
    ∧ (∀ (q : Part) (par2 : Option (List Char)), Part.IsMultipart q = false →
        part2PartsWith rb q par2 = ([q], none))
    ∧ (ReadMessage 60 mixedAltStream).1.Parts.map Part.Body = [aaaLine, bbbLine, cccLine]
    ∧ (ReadMessage 60 mixedAltStream).2.1 = none := by
  refine ⟨?_, ?_, rfl, rfl⟩
  · unfold part2PartsWith
    rw [hmp]
    dsimp only
    rw [hparse]
    simp
  · intro q par2 hq
    unfold part2PartsWith
    rw [hq]
    simp

def altCT : List Char := "multipart/alternative; boundary=inner".data

def altPart : Part := ⟨Header.Add emptyHeader hdrContentType altCT, []⟩

def altMt : MimeType := mimeParseD altCT

/-- C5 witness: the dichotomy applied at a concrete multipart part and a
concrete leaf part, and the flattened three-leaf message. -/
theorem part2Parts_flattening_witness :
    part2PartsWith (readBody 0) altPart none
      = ((readBody 0 altPart.Body (twoDashes ++ MimeType.param altMt multiBound) none).1,
         (readBody 0 altPart.Body (twoDashes ++ MimeType.param altMt multiBound) none).2.1)
    ∧ part2PartsWith (readBody 0) plain7bitPart none = ([plain7bitPart], none)
    ∧ (ReadMessage 60 mixedAltStream).1.Parts.map Part.Body = [aaaLine, bbbLine, cccLine] := by
  have h := part2Parts_flattening (readBody 0) altPart none altMt (by decide) (by rfl)
  exact ⟨h.1, h.2.1 plain7bitPart none (by decide), h.2.2.1⟩

def noMimeBody : List Char := "--zz\nhello\n--zz--\n".data

/-- C6: a message without a MIME-Version header is never multipart —
`IsMultipart` is false whatever the Content-Type says — so `ReadMessage`
takes the plain capture: the concrete message whose Content-Type parses
as multipart/mixed but lacks MIME-Version comes back as one synthetic
part with an empty header and the whole remaining body. -/
theorem no_mime_version_single_part (h : Header) (ps : List Part)
    (hmv : Header.Has h hdrMimeVersion = false) :
    Message.IsMultipart ⟨h, ps⟩ = false
    ∧ (ReadMessage 60 noMimeVersionStream).1.Parts = [⟨emptyHeader, noMimeBody⟩]
    ∧ (ReadMessage 60 noMimeVersionStream).2.1 = none
    ∧ (mimeParseD (Message.Get (ReadMessage 60 noMimeVersionStream).1 hdrContentType)).MainType
        = multiPart := by
  refine ⟨?_, rfl, rfl, rfl⟩
  unfold Message.IsMultipart Message.IsMime Message.Has
  simp [hmv]

/-- C6 witness: the vacuous-MIME case at the empty header. -/
theorem no_mime_version_single_part_witness :
    Message.IsMultipart ⟨emptyHeader, []⟩ = false
    ∧ (ReadMessage 60 noMimeVersionStream).1.Parts = [⟨emptyHeader, noMimeBody⟩] := by
  have h := no_mime_version_single_part emptyHeader [] (by decide)
  exact ⟨h.1, h.2.1⟩

def keyK : List Char := "K".data

def v1val : List Char := "v1".data

def v2padded : List Char := " v2 ".data

/-- C7 counterexample: `Add` trims the stored value, so after adding a
value with surrounding whitespace, `Get` returns the trimmed form, not
the value verbatim as the claim states. -/
theorem header_add_trims_value :
    Header.Get (Header.Add (Header.Add emptyHeader keyK v1val) keyK v2padded) keyK = ("v2".data)
    ∧ ¬ ("v2".data) = v2padded :=
  ⟨rfl, by decide⟩

/-- C7 amended: after `add(k, v1)` then `add(k, v2)`, `get` under any key
with the same canonical form returns v2 trimmed of surrounding
whitespace (v2 itself whenever already trimmed); `has` is true after
either add; `get` of a key with no stored values returns the empty
string. -/
theorem header_last_wins (h : Header) (k k2 v1 v2 : List Char)
    (hc : canonicalKey k2 = canonicalKey k) :
    Header.Get (Header.Add (Header.Add h k v1) k v2) k2 = trimSpace v2
    ∧ Header.Has (Header.Add h k v1) k2 = true
    ∧ Header.Has (Header.Add (Header.Add h k v1) k v2) k2 = true
    ∧ (∀ (h' : Header) (k' : List Char), Header.Has h' k' = false → Header.Get h' k' = []) := by
  refine ⟨?_, ?_, ?_, ?_⟩
  · unfold Header.Get Header.Add
    rw [hc]
    dsimp only
    rw [hLookup_addEntry_self]
    simp [lastOrNil_concat]
  · unfold Header.Has Header.Add
    rw [hc]
    dsimp only
    rw [hLookup_addEntry_self]
    rfl
  · unfold Header.Has Header.Add
    rw [hc]
    dsimp only
    rw [hLookup_addEntry_self]
    rfl
  · intro h' k' hh
    unfold Header.Has at hh
    unfold Header.Get
    cases hl : hLookup h'.entries (canonicalKey k') with
    | none => simp [lastOrNil]
    | some vs => rw [hl] at hh; simp at hh

/-- C7 witness for the amended statement, at concrete keys and values. -/
theorem header_last_wins_witness :
    Header.Get (Header.Add (Header.Add emptyHeader keyK ("a".data)) keyK ("b".data)) keyK
      = trimSpace ("b".data)
    ∧ Header.Has (Header.Add emptyHeader keyK ("a".data)) keyK = true := by
  have h := header_last_wins emptyHeader keyK keyK ("a".data) ("b".data) rfl
  exact ⟨h.1, h.2.1⟩

/-- C8: the header reader fails exactly when some complete,
non-continuation, non-blank line before the blank-line terminator lacks
a colon (the only `error` site of `readHeader`); end of stream while
expecting the terminator is tolerated, with the headers collected so
far returned — the specification-side predicate and the implementation
agree on every stream. -/
theorem headerReader_fails_iff_missing_colon (s : List Char) :
    isErrB (readHeaderFull s).1 = specHeaderBadFull s :=
  headerBad_iff (s.length + 1) s emptyHeader

/-- C9: the folding rule.  A space continuation is appended to the value
after a single space with its surrounding whitespace (the trailing
newline included) stripped, and a tab continuation is appended after a
single space with the remainder of the physical line kept raw; hence a
header value folded over a second space-prefixed line parses to exactly
the same result as the value written on one line with the internal
whitespace collapsed to that single space. -/
theorem readHeader_folding
    (n a b rest : List Char) (f : Nat) (v s : List Char)
    (hn1 : n.dropWhile isSpaceChar = n)
    (hn0 : ¬ n = []) (hnNL : '\n' ∉ n) (hnC : ':' ∉ n)
    (ha1 : a.dropWhile isSpaceChar = a)
    (ha2 : a.reverse.dropWhile isSpaceChar = a.reverse)
    (ha0 : ¬ a = []) (haNL : '\n' ∉ a)
    (hb1 : b.dropWhile isSpaceChar = b)
    (hb2 : b.reverse.dropWhile isSpaceChar = b.reverse)
    (hb0 : ¬ b = []) (hbNL : '\n' ∉ b) :
    readHeaderFull ((n ++ ':' :: a) ++ '\n' :: (' ' :: (b ++ '\n' :: rest)))
      = readHeaderFull ((n ++ ':' :: (a ++ ' ' :: b)) ++ '\n' :: rest)
    ∧ consumeCont (f + 1) (' ' :: s) v
        = consumeCont f (readLine s).2.2 (v ++ ' ' :: trimSpace (readLine s).1)
    ∧ consumeCont (f + 1) ('\t' :: s) v
        = consumeCont f (readLine s).2.2 (v ++ ' ' :: (readLine s).1) := by
  refine ⟨?_, by simp [consumeCont], by simp [consumeCont]⟩
  have harev_ne : ¬ a.reverse = [] := by simp [ha0]
  have hbrev_ne : ¬ b.reverse = [] := by simp [hb0]
  have hna_ne : ¬ (n ++ ':' :: a) = [] := by simp
  have hnab_ne : ¬ (n ++ ':' :: (a ++ ' ' :: b)) = [] := by simp
  have hNL1 : '\n' ∉ (n ++ ':' :: a) := by
    intro hmem
    simp only [List.mem_append, List.mem_cons] at hmem
    rcases hmem with h | h | h
    · exact hnNL h
    · exact absurd h (by decide)
    · exact haNL h
  have hNL2 : '\n' ∉ (n ++ ':' :: (a ++ ' ' :: b)) := by
    intro hmem
    simp only [List.mem_append, List.mem_cons] at hmem
    rcases hmem with h | h | h | h | h
    · exact hnNL h
    · exact absurd h (by decide)
    · exact haNL h
    · exact absurd h (by decide)
    · exact hbNL h
  have hdropA : (n ++ ':' :: a).dropWhile isSpaceChar = n ++ ':' :: a :=
    dropWhile_keep _ n (':' :: a) hn1 hn0
  have hrevA : (n ++ ':' :: a).reverse = a.reverse ++ ':' :: n.reverse := by simp
  have hdropArev :
      (n ++ ':' :: a).reverse.dropWhile isSpaceChar = (n ++ ':' :: a).reverse := by
    rw [hrevA]
    exact dropWhile_keep _ a.reverse (':' :: n.reverse) ha2 harev_ne
  have hdropB :
      (n ++ ':' :: (a ++ ' ' :: b)).dropWhile isSpaceChar = n ++ ':' :: (a ++ ' ' :: b) :=
    dropWhile_keep _ n (':' :: (a ++ ' ' :: b)) hn1 hn0
  have hrevB : (n ++ ':' :: (a ++ ' ' :: b)).reverse
      = b.reverse ++ ' ' :: (a.reverse ++ ':' :: n.reverse) := by simp
  have hdropBrev : (n ++ ':' :: (a ++ ' ' :: b)).reverse.dropWhile isSpaceChar
      = (n ++ ':' :: (a ++ ' ' :: b)).reverse := by
    rw [hrevB]
    exact dropWhile_keep _ b.reverse (' ' :: (a.reverse ++ ':' :: n.reverse)) hb2 hbrev_ne
  have hciA : colonIndex (n ++ ':' :: a) = some n.length := colonIndex_append n a hnC
  have hciB : colonIndex (n ++ ':' :: (a ++ ' ' :: b)) = some n.length :=
    colonIndex_append n (a ++ ' ' :: b) hnC
  have htrimAB : trimSpace (a ++ ' ' :: b) = a ++ ' ' :: b := by
    refine trimSpace_eq_self _ (dropWhile_keep _ a (' ' :: b) ha1 ha0) ?_
    have hr : (a ++ ' ' :: b).reverse = b.reverse ++ ' ' :: a.reverse := by simp
    rw [hr]
    exact dropWhile_keep _ b.reverse (' ' :: a.reverse) hb2 hbrev_ne
  have hccL : consumeContFull (' ' :: (b ++ '\n' :: rest)) a
      = consumeContFull rest (a ++ ' ' :: b) := by
    unfold consumeContFull
    have hstep : consumeCont ((' ' :: (b ++ '\n' :: rest)).length + 1)
          (' ' :: (b ++ '\n' :: rest)) a
        = consumeCont ((b ++ '\n' :: rest).length + 1)
            (readLine (b ++ '\n' :: rest)).2.2
            (a ++ ' ' :: trimSpace (readLine (b ++ '\n' :: rest)).1) := by
      simp only [List.length_cons]
      simp [consumeCont]
    rw [hstep, readLine_append b rest hbNL]
    simp only []
    rw [trim_nl b hb1 hb0 hb2]
    apply consumeCont_irrel
    · simp only [List.length_append, List.length_cons]
      omega
    · omega
  unfold readHeaderFull
  rw [readHeaderAux_step _ (n ++ ':' :: a) (' ' :: (b ++ '\n' :: rest)) emptyHeader
      n.length hdropA hdropArev hna_ne hNL1 hciA]
  rw [readHeaderAux_step _ (n ++ ':' :: (a ++ ' ' :: b)) rest emptyHeader
      n.length hdropB hdropBrev hnab_ne hNL2 hciB]
  rw [drop_colon n a, drop_colon n (a ++ ' ' :: b)]
  rw [take_len_append n (':' :: a), take_len_append n (':' :: (a ++ ' ' :: b))]
  rw [trimSpace_eq_self a ha1 ha2, htrimAB, hccL]
  have hle : (consumeContFull rest (a ++ ' ' :: b)).2.length ≤ rest.length := by
    unfold consumeContFull
    exact consumeCont_rest_le _ _ _
  apply readHeaderAux_irrel
  · simp only [List.length_append, List.length_cons]
    omega
  · simp only [List.length_append, List.length_cons]
    omega

def subjKey : List Char := "Subject".data

def helloVal : List Char := "hello".data

def worldVal : List Char := "world".data

/-- C9 witness: the folding equivalence at a concrete header, and the
two continuation-step equations at concrete arguments. -/
theorem readHeader_folding_witness :
    readHeaderFull ((subjKey ++ ':' :: helloVal) ++ '\n' :: (' ' :: (worldVal ++ '\n' :: ("\nX".data))))
      = readHeaderFull ((subjKey ++ ':' :: (helloVal ++ ' ' :: worldVal)) ++ '\n' :: ("\nX".data))
    ∧ consumeCont 4 (' ' :: ("w\n".data)) helloVal
        = consumeCont 3 (readLine ("w\n".data)).2.2
            (helloVal ++ ' ' :: trimSpace (readLine ("w\n".data)).1)
    ∧ consumeCont 4 ('\t' :: ("w\n".data)) helloVal
        = consumeCont 3 (readLine ("w\n".data)).2.2
            (helloVal ++ ' ' :: (readLine ("w\n".data)).1) := by
  have h := readHeader_folding subjKey helloVal worldVal ("\nX".data) 3 helloVal ("w\n".data)
    (by decide) (by decide) (by decide) (by decide)
    (by decide) (by decide) (by decide) (by decide)
    (by decide) (by decide) (by decide) (by decide)
  exact h

end Mbox
